import Mathlib

/-!
Verification of the root-14-core shielded-transfer protocol core.

The scalar field of BLS12-381 is embedded as `ZMod frModulus`.  The Poseidon
sponge of ark-crypto-primitives is modelled parametrically over its
configuration (round counts, S-box exponent, round constants, MDS matrix):
the concrete constants are produced by library code
(`find_poseidon_ark_and_mds`) that is not part of this repository, so every
theorem quantifies over the configuration.  Rust `Vec` indexing `v[i]` that
the source guards by construction is rendered with `List.getD`; Rust `u64`
and `u32` values are rendered as `Nat` with explicit bounds where they
matter.
-/

namespace R14

/-- The BLS12-381 scalar field modulus (the `Fr` prime). -/
def frModulus : Nat :=
  52435875175126190479447740508185965837690552500527637822603658699938581184513

/-- The scalar field `Fr` of BLS12-381. -/
abbrev F : Type := ZMod frModulus

instance : NeZero frModulus := ⟨by decide⟩

/-- Poseidon configuration, mirroring `PoseidonConfig` of
ark-crypto-primitives: full / partial round counts (`fRounds`, `pRounds`),
S-box exponent `alpha` (a `u64` in Rust), additive round constants `ark`,
MDS matrix `mds`, sponge `rate` and `capacity`.  The repository builds it in
`r14-poseidon/src/lib.rs` with rate 2, capacity 1, 8 full rounds, 31 partial
rounds and alpha 17; the constants come from library code outside `src/`,
hence the parametrisation. -/
structure PoseidonCfg where
  fRounds : Nat
  pRounds : Nat
  alpha : Nat
  ark : List (List F)
  mds : List (List F)
  rate : Nat
  capacity : Nat

/-- `state[pos + i] += elems[i]` for each `i`, as in the sponge absorb. -/
def addAt : List F → Nat → List F → List F
  | st, _, [] => st
  | [], _, _ => []
  | s :: st, 0, e :: es => (s + e) :: addAt st 0 es
  | s :: st, n + 1, es => s :: addAt st n es

/-- `state[i] += row[i]` (the `apply_ark` step of the Poseidon permutation). -/
def addRow : List F → List F → List F
  | [], _ => []
  | s :: st, [] => s :: addRow st []
  | s :: st, r :: rs => (s + r) :: addRow st rs

/-- Full-round S-box: every state entry is raised to `alpha`. -/
def sboxAll (cfg : PoseidonCfg) (st : List F) : List F :=
  st.map (fun s => s ^ cfg.alpha)

/-- Partial-round S-box: only `state[0]` is raised to `alpha`. -/
def sboxHead (cfg : PoseidonCfg) : List F → List F
  | [] => []
  | s :: st => s ^ cfg.alpha :: st

/-- One MDS output entry: `sum over j of state[j] * row[j]`. -/
def dotRow (row st : List F) : F :=
  (st.zip row).foldl (fun acc pr => acc + pr.1 * pr.2) 0

/-- The `apply_mds` step: `new[i] = sum_j state[j] * mds[i][j]`. -/
def applyMds (cfg : PoseidonCfg) (st : List F) : List F :=
  (List.range st.length).map (fun i => dotRow (cfg.mds.getD i []) st)

/-- One full round at round-constant index `r`. -/
def fullRound (cfg : PoseidonCfg) (st : List F) (r : Nat) : List F :=
  applyMds cfg (sboxAll cfg (addRow st (cfg.ark.getD r [])))

/-- One partial round at round-constant index `r`. -/
def partRound (cfg : PoseidonCfg) (st : List F) (r : Nat) : List F :=
  applyMds cfg (sboxHead cfg (addRow st (cfg.ark.getD r [])))

/-- The Poseidon permutation: `fRounds / 2` full rounds, then `pRounds`
partial rounds, then the remaining full rounds, exactly as
`PoseidonSponge::permute` of ark-crypto-primitives iterates them. -/
def permute (cfg : PoseidonCfg) (st : List F) : List F :=
  let half := cfg.fRounds / 2
  let st1 := (List.range' 0 half).foldl (fullRound cfg) st
  let st2 := (List.range' half cfg.pRounds).foldl (partRound cfg) st1
  (List.range' (half + cfg.pRounds) (cfg.fRounds - half)).foldl (fullRound cfg) st2

/-- `absorb_internal`: add rate-sized chunks into the rate portion of the
state, permuting between chunks.  The first argument is fuel bounding the
number of loop iterations (`elems.length + 1` suffices whenever
`cfg.rate > 0`, which holds for the repository configuration). -/
def absorbGo (cfg : PoseidonCfg) : Nat → List F → Nat → List F → List F
  | 0, st, _, _ => st
  | fuel + 1, st, startIdx, elems =>
    if startIdx + elems.length ≤ cfg.rate then
      addAt st (cfg.capacity + startIdx) elems
    else
      let k := cfg.rate - startIdx
      absorbGo cfg fuel (permute cfg (addAt st (cfg.capacity + startIdx) (elems.take k)))
        0 (elems.drop k)

/-- Squeezing one native field element from a sponge still in absorbing
mode: permute, then read `state[capacity]` (the call
`squeeze_native_field_elements(1)[0]` specialised to one output, which is
the only way the repository squeezes). -/
def squeeze1 (cfg : PoseidonCfg) (st : List F) : F :=
  (permute cfg st).getD cfg.capacity 0

/-- `poseidon_hash` of `r14-poseidon/src/lib.rs`: fresh sponge, absorb all
inputs, squeeze one element.  An empty input list leaves the state
untouched, as `absorb` returns early on empty input. -/
def poseidon_hash (cfg : PoseidonCfg) (inputs : List F) : F :=
  let fresh := List.replicate (cfg.rate + cfg.capacity) (0 : F)
  if inputs.isEmpty then squeeze1 cfg fresh
  else if cfg.rate = 0 then
    squeeze1 cfg (absorbGo cfg (inputs.length + 1) (permute cfg fresh) 0 inputs)
  else
    squeeze1 cfg (absorbGo cfg (inputs.length + 1) fresh 0 inputs)

/-- `hash2` of `r14-poseidon/src/lib.rs`. -/
def hash2 (cfg : PoseidonCfg) (a b : F) : F := poseidon_hash cfg [a, b]

/-!
The circuit-gadget form of the sponge (`PoseidonSpongeVar` of
ark-crypto-primitives, wrapped by `poseidon_hash_var` in
`r14-circuit/src/poseidon_gadget.rs`).  In this shallow embedding a circuit
variable is represented by its assigned field value; the gadget runs the
same permutation schedule as the native sponge but computes the S-box with
the constraint-level square-and-multiply exponentiation
(`pow_by_constant`, iterating the 64 bits of the `u64` exponent from the
most significant bit down). -/

/-- `pow_by_constant`: square-and-multiply over the 64 exponent bits,
most-significant first. -/
def powConst (b : F) (e : Nat) : F :=
  ((List.range 64).reverse.map (fun i => e.testBit i)).foldl
    (fun acc bit => if bit then acc * acc * b else acc * acc) 1

/-- Gadget `apply_ark`. -/
def addRowVar : List F → List F → List F
  | [], _ => []
  | s :: st, [] => s :: addRowVar st []
  | s :: st, r :: rs => (s + r) :: addRowVar st rs

/-- Gadget full-round S-box. -/
def sboxAllVar (cfg : PoseidonCfg) (st : List F) : List F :=
  st.map (fun s => powConst s cfg.alpha)

/-- Gadget partial-round S-box. -/
def sboxHeadVar (cfg : PoseidonCfg) : List F → List F
  | [] => []
  | s :: st => powConst s cfg.alpha :: st

/-- Gadget MDS row application. -/
def dotRowVar (row st : List F) : F :=
  (st.zip row).foldl (fun acc pr => acc + pr.1 * pr.2) 0

/-- Gadget `apply_mds`. -/
def applyMdsVar (cfg : PoseidonCfg) (st : List F) : List F :=
  (List.range st.length).map (fun i => dotRowVar (cfg.mds.getD i []) st)

/-- Gadget full round. -/
def fullRoundVar (cfg : PoseidonCfg) (st : List F) (r : Nat) : List F :=
  applyMdsVar cfg (sboxAllVar cfg (addRowVar st (cfg.ark.getD r [])))

/-- Gadget partial round. -/
def partRoundVar (cfg : PoseidonCfg) (st : List F) (r : Nat) : List F :=
  applyMdsVar cfg (sboxHeadVar cfg (addRowVar st (cfg.ark.getD r [])))

/-- Gadget permutation (`PoseidonSpongeVar::permute_var`). -/
def permuteVar (cfg : PoseidonCfg) (st : List F) : List F :=
  let half := cfg.fRounds / 2
  let st1 := (List.range' 0 half).foldl (fullRoundVar cfg) st
  let st2 := (List.range' half cfg.pRounds).foldl (partRoundVar cfg) st1
  (List.range' (half + cfg.pRounds) (cfg.fRounds - half)).foldl (fullRoundVar cfg) st2

/-- Gadget `absorb_internal`. -/
def absorbGoVar (cfg : PoseidonCfg) : Nat → List F → Nat → List F → List F
  | 0, st, _, _ => st
  | fuel + 1, st, startIdx, elems =>
    if startIdx + elems.length ≤ cfg.rate then
      addAt st (cfg.capacity + startIdx) elems
    else
      let k := cfg.rate - startIdx
      absorbGoVar cfg fuel
        (permuteVar cfg (addAt st (cfg.capacity + startIdx) (elems.take k)))
        0 (elems.drop k)

/-- Gadget squeeze of a single field element. -/
def squeeze1Var (cfg : PoseidonCfg) (st : List F) : F :=
  (permuteVar cfg st).getD cfg.capacity 0

/-- `poseidon_hash_var` of `r14-circuit/src/poseidon_gadget.rs`: the gadget
sponge evaluated on the values assigned to the circuit variables. -/
def poseidon_hash_var (cfg : PoseidonCfg) (inputs : List F) : F :=
  let fresh := List.replicate (cfg.rate + cfg.capacity) (0 : F)
  if inputs.isEmpty then squeeze1Var cfg fresh
  else if cfg.rate = 0 then
    squeeze1Var cfg (absorbGoVar cfg (inputs.length + 1) (permuteVar cfg fresh) 0 inputs)
  else
    squeeze1Var cfg (absorbGoVar cfg (inputs.length + 1) fresh 0 inputs)

/-- `hash2_var` of `r14-circuit/src/poseidon_gadget.rs`. -/
def hash2_var (cfg : PoseidonCfg) (a b : F) : F := poseidon_hash_var cfg [a, b]

/-! Equivalence of the gadget sponge with the native sponge. -/

lemma powConst_foldl (b : F) (e : Nat) :
    ∀ (k : Nat) (a : F),
      ((List.range k).reverse.map (fun i => e.testBit i)).foldl
        (fun acc bit => if bit then acc * acc * b else acc * acc) a
        = a ^ (2 ^ k) * b ^ (e % 2 ^ k) := by
  intro k
  induction k with
  | zero => intro a; simp [Nat.mod_one]
  | succ k ih =>
    intro a
    have hrange : (List.range (k + 1)).reverse = k :: (List.range k).reverse := by
      rw [List.range_succ, List.reverse_append]; rfl
    rw [hrange, List.map_cons, List.foldl_cons, ih]
    have hmod : e % 2 ^ (k + 1) = e % 2 ^ k + 2 ^ k * (e / 2 ^ k % 2) := by
      have h2 : (2 : Nat) ^ (k + 1) = 2 ^ k * 2 := by ring
      rw [h2, Nat.mod_mul]
    have ha : a * a = a ^ 2 := (sq a).symm
    by_cases hbit : e.testBit k
    · have hdiv : e / 2 ^ k % 2 = 1 := by
        rw [Nat.testBit_to_div_mod] at hbit; exact of_decide_eq_true hbit
      rw [if_pos hbit, hmod, hdiv, ha, mul_pow, ← pow_mul, mul_assoc, ← pow_add]
      congr 1
      · congr 1
        ring
      · congr 1
        omega
    · have hdiv : e / 2 ^ k % 2 = 0 := by
        rw [Nat.testBit_to_div_mod] at hbit
        rcases Nat.mod_two_eq_zero_or_one (e / 2 ^ k) with h | h
        · exact h
        · exact absurd (decide_eq_true h) hbit
      rw [if_neg hbit, hmod, hdiv, ha, ← pow_mul]
      congr 1
      · congr 1
        ring
lemma powConst_eq (b : F) (e : Nat) (he : e < 2 ^ 64) : powConst b e = b ^ e := by
  rw [powConst, powConst_foldl b e 64 1, one_pow, one_mul, Nat.mod_eq_of_lt he]

lemma addRowVar_eq (st r : List F) : addRowVar st r = addRow st r := by
  induction st generalizing r with
  | nil => cases r <;> rfl
  | cons s st ih => cases r <;> simp [addRowVar, addRow, ih]

lemma sboxAllVar_eq (cfg : PoseidonCfg) (h : cfg.alpha < 2 ^ 64) (st : List F) :
    sboxAllVar cfg st = sboxAll cfg st := by
  unfold sboxAllVar sboxAll
  exact List.map_congr_left (fun s _ => powConst_eq s cfg.alpha h)

lemma sboxHeadVar_eq (cfg : PoseidonCfg) (h : cfg.alpha < 2 ^ 64) (st : List F) :
    sboxHeadVar cfg st = sboxHead cfg st := by
  cases st with
  | nil => rfl
  | cons s rest => simp [sboxHeadVar, sboxHead, powConst_eq s cfg.alpha h]

lemma applyMdsVar_eq (cfg : PoseidonCfg) (st : List F) :
    applyMdsVar cfg st = applyMds cfg st := rfl

lemma fullRoundVar_eq (cfg : PoseidonCfg) (h : cfg.alpha < 2 ^ 64) :
    fullRoundVar cfg = fullRound cfg := by
  funext st r
  rw [fullRoundVar, fullRound, applyMdsVar_eq, addRowVar_eq, sboxAllVar_eq cfg h]

lemma partRoundVar_eq (cfg : PoseidonCfg) (h : cfg.alpha < 2 ^ 64) :
    partRoundVar cfg = partRound cfg := by
  funext st r
  rw [partRoundVar, partRound, applyMdsVar_eq, addRowVar_eq, sboxHeadVar_eq cfg h]

lemma permuteVar_eq (cfg : PoseidonCfg) (h : cfg.alpha < 2 ^ 64) (st : List F) :
    permuteVar cfg st = permute cfg st := by
  rw [permuteVar, permute, fullRoundVar_eq cfg h, partRoundVar_eq cfg h]

lemma absorbGoVar_eq (cfg : PoseidonCfg) (h : cfg.alpha < 2 ^ 64) :
    ∀ (fuel : Nat) (st : List F) (startIdx : Nat) (elems : List F),
      absorbGoVar cfg fuel st startIdx elems = absorbGo cfg fuel st startIdx elems := by
  intro fuel
  induction fuel with
  | zero => intro st startIdx elems; rfl
  | succ fuel ih =>
    intro st startIdx elems
    rw [absorbGoVar, absorbGo]
    by_cases hle : startIdx + elems.length ≤ cfg.rate
    · rw [if_pos hle, if_pos hle]
    · rw [if_neg hle, if_neg hle]
      simp only [permuteVar_eq cfg h, ih]

lemma squeeze1Var_eq (cfg : PoseidonCfg) (h : cfg.alpha < 2 ^ 64) (st : List F) :
    squeeze1Var cfg st = squeeze1 cfg st := by
  rw [squeeze1Var, squeeze1, permuteVar_eq cfg h]

lemma poseidon_hash_var_eq (cfg : PoseidonCfg) (h : cfg.alpha < 2 ^ 64)
    (inputs : List F) : poseidon_hash_var cfg inputs = poseidon_hash cfg inputs := by
  rw [poseidon_hash_var, poseidon_hash]
  by_cases hemp : inputs.isEmpty
  · rw [if_pos hemp, if_pos hemp, squeeze1Var_eq cfg h]
  · rw [if_neg hemp, if_neg hemp]
    by_cases hrate : cfg.rate = 0
    · rw [if_pos hrate, if_pos hrate, squeeze1Var_eq cfg h, absorbGoVar_eq cfg h,
        permuteVar_eq cfg h]
    · rw [if_neg hrate, if_neg hrate, squeeze1Var_eq cfg h, absorbGoVar_eq cfg h]

/-- A small concrete Poseidon configuration used to instantiate theorems on
concrete inputs (the repository's production constants are produced by
library code outside this repository). -/
def cfgW : PoseidonCfg :=
  { fRounds := 2, pRounds := 1, alpha := 17,
    ark := [[1, 2, 3], [4, 5, 6], [7, 8, 9]],
    mds := [[1, 2, 0], [0, 1, 0], [1, 0, 1]],
    rate := 2, capacity := 1 }

/-- A degenerate configuration whose permutation is the identity (zero
rounds), under which the sponge reduces to simple closed forms; used to
exercise the hash-independent structure of the Merkle algorithms. -/
def cfgId : PoseidonCfg :=
  { fRounds := 0, pRounds := 0, alpha := 17, ark := [], mds := [], rate := 2,
    capacity := 1 }

/-- C2: for every configuration whose S-box exponent fits in a `u64` (it is
a `u64` in the Rust `PoseidonConfig`), the circuit-gadget Poseidon sponge
evaluated on variables holding given values returns exactly the native
Poseidon hash of those values, and `hash2` is the two-input specialisation
`poseidon_hash [a, b]` in both forms. -/
theorem poseidon_gadget_matches_native (cfg : PoseidonCfg) (h : cfg.alpha < 2 ^ 64)
    (inputs : List F) (a b : F) :
    poseidon_hash_var cfg inputs = poseidon_hash cfg inputs ∧
    hash2_var cfg a b = poseidon_hash_var cfg [a, b] ∧
    hash2 cfg a b = poseidon_hash cfg [a, b] :=
  ⟨poseidon_hash_var_eq cfg h inputs, rfl, rfl⟩

set_option maxRecDepth 40000 in
/-- Witness for C2 at a concrete configuration and concrete inputs. -/
theorem poseidon_gadget_matches_native_witness :
    cfgW.alpha < 2 ^ 64 ∧
    (poseidon_hash_var cfgW [3, 5] = poseidon_hash cfgW [3, 5] ∧
     hash2_var cfgW 3 5 = poseidon_hash_var cfgW [3, 5] ∧
     hash2 cfgW 3 5 = poseidon_hash cfgW [3, 5]) :=
  ⟨by decide, poseidon_gadget_matches_native cfgW (by decide) [3, 5] 3 5⟩

/-! ## Merkle accumulator (r14-indexer/src/tree.rs and r14-types) -/

/-- `MERKLE_DEPTH` of `r14-types/src/merkle.rs`. -/
def MERKLE_DEPTH : Nat := 20

/-- `MerklePath` of `r14-types/src/merkle.rs`. -/
structure MerklePath where
  siblings : List F
  indices : List Bool

/-- The zero-hash chain of `SparseMerkleTree::new`:
`zeros[0] = 0`, `zeros[i] = hash2(zeros[i-1], zeros[i-1])`. -/
def zeros (cfg : PoseidonCfg) : Nat → F
  | 0 => 0
  | i + 1 => hash2 cfg (zeros cfg i) (zeros cfg i)

/-- One level of the root computation: pair adjacent entries, using the
level's zero hash as the right sibling of a trailing odd entry (the inner
`while` loop of `SparseMerkleTree::root` / `proof`). -/
def nextLayer (cfg : PoseidonCfg) (zero : F) : List F → List F
  | [] => []
  | [l] => [hash2 cfg l zero]
  | a :: b :: rest => hash2 cfg a b :: nextLayer cfg zero rest

/-- Iterate `nextLayer` for `count` levels starting at `level` (the outer
`for level in 0..MERKLE_DEPTH` loop of `SparseMerkleTree::root`). -/
def buildLayers (cfg : PoseidonCfg) : List F → Nat → Nat → List F
  | layer, _, 0 => layer
  | layer, level, count + 1 =>
    buildLayers cfg (nextLayer cfg (zeros cfg level) layer) (level + 1) count

/-- `SparseMerkleTree::root`: the zero chain's top entry for an empty tree,
otherwise the single entry left after hashing upward `MERKLE_DEPTH`
levels. -/
def treeRoot (cfg : PoseidonCfg) (leaves : List F) : F :=
  if leaves.isEmpty then zeros cfg MERKLE_DEPTH
  else (buildLayers cfg leaves 0 MERKLE_DEPTH).getD 0 0

/-- The loop body of `SparseMerkleTree::proof`: collect the sibling (or the
level zero hash when the sibling index is out of range) and the parity bit
at each level, rebuilding the next layer as `root` does. -/
def proofLoop (cfg : PoseidonCfg) : List F → Nat → Nat → Nat → List F × List Bool
  | _, _, _, 0 => ([], [])
  | layer, idx, level, count + 1 =>
    let rest := proofLoop cfg (nextLayer cfg (zeros cfg level) layer) (idx / 2) (level + 1) count
    (layer.getD (if idx % 2 == 1 then idx - 1 else idx + 1) (zeros cfg level) :: rest.1,
     (idx % 2 == 1) :: rest.2)

/-- `SparseMerkleTree::proof` (the `assert!(index < leaves.len())`
precondition appears as a hypothesis of the theorems). -/
def tree_proof (cfg : PoseidonCfg) (leaves : List F) (index : Nat) : MerklePath :=
  let pr := proofLoop cfg leaves index 0 MERKLE_DEPTH
  ⟨pr.1, pr.2⟩

/-- The re-hashing loop shared by `verify_proof` in `tree.rs` and the
native root recomputation in `r14-circuit/src/lib.rs` (`prove`) and
`transfer.rs`: `current = hash2(sibling, current)` when the index bit says
the node is a right child, `hash2(current, sibling)` otherwise. -/
def chainFold (cfg : PoseidonCfg) (cur : F) (sibs : List F) (idxs : List Bool) : F :=
  (sibs.zip idxs).foldl
    (fun c pr => if pr.2 then hash2 cfg pr.1 c else hash2 cfg c pr.1) cur

/-- `verify_proof` of `r14-indexer/src/tree.rs`. -/
def verify_proof (cfg : PoseidonCfg) (leaf : F) (path : MerklePath) (root : F) : Bool :=
  chainFold cfg leaf path.siblings path.indices == root

/-! ## SDK root computation (r14-sdk/src/merkle.rs) -/

/-- `empty_root` of `r14-sdk/src/merkle.rs`: `hash2(h, h)` iterated
`MERKLE_DEPTH` times starting from zero. -/
def empty_root (cfg : PoseidonCfg) : F :=
  (List.range MERKLE_DEPTH).foldl (fun h _ => hash2 cfg h h) 0

/-- The zero-hash chain recomputed locally by the SDK's `compute_root`. -/
def sdkZeros (cfg : PoseidonCfg) : Nat → F
  | 0 => 0
  | i + 1 => hash2 cfg (sdkZeros cfg i) (sdkZeros cfg i)

/-- The SDK's per-level pairing loop (body of `compute_root`). -/
def sdkNextLayer (cfg : PoseidonCfg) (zero : F) : List F → List F
  | [] => []
  | [l] => [hash2 cfg l zero]
  | a :: b :: rest => hash2 cfg a b :: sdkNextLayer cfg zero rest

/-- The SDK's level iteration (outer loop of `compute_root`). -/
def sdkBuildLayers (cfg : PoseidonCfg) : List F → Nat → Nat → List F
  | layer, _, 0 => layer
  | layer, level, count + 1 =>
    sdkBuildLayers cfg (sdkNextLayer cfg (sdkZeros cfg level) layer) (level + 1) count

/-- `compute_root` of `r14-sdk/src/merkle.rs`. -/
def compute_root (cfg : PoseidonCfg) (leaves : List F) : F :=
  if leaves.isEmpty then empty_root cfg
  else (sdkBuildLayers cfg leaves 0 MERKLE_DEPTH).getD 0 0

/-! ## Merkle round-trip lemmas -/

lemma listPairInduction {P : List F → Prop} (h0 : P []) (h1 : ∀ a, P [a])
    (h2 : ∀ a b rest, P rest → P (a :: b :: rest)) : ∀ l, P l := by
  have key : ∀ (n : Nat) (l : List F), l.length ≤ n → P l := by
    intro n
    induction n with
    | zero =>
      intro l hl
      cases l with
      | nil => exact h0
      | cons a t => simp at hl
    | succ n ih =>
      intro l hl
      cases l with
      | nil => exact h0
      | cons a t =>
        cases t with
        | nil => exact h1 a
        | cons b rest =>
          apply h2
          apply ih
          simp [List.length_cons] at hl
          omega
  exact fun l => key l.length l le_rfl

lemma nextLayer_length (cfg : PoseidonCfg) (zero : F) :
    ∀ l : List F, (nextLayer cfg zero l).length = (l.length + 1) / 2 := by
  apply listPairInduction
  · simp [nextLayer]
  · intro a; simp [nextLayer]
  · intro a b rest ih
    simp [nextLayer, ih]
    omega

lemma chainStep_eq_nextLayer (cfg : PoseidonCfg) (zero : F) :
    ∀ layer : List F, ∀ idx, idx < layer.length →
      (if idx % 2 == 1
        then hash2 cfg (layer.getD (idx - 1) zero) (layer.getD idx 0)
        else hash2 cfg (layer.getD idx 0) (layer.getD (idx + 1) zero))
      = (nextLayer cfg zero layer).getD (idx / 2) 0 := by
  apply listPairInduction
  · intro idx h
    simp at h
  · intro a idx h
    have h0 : idx = 0 := by simp at h; omega
    subst h0
    simp [nextLayer]
  · intro a b rest ih idx h
    match idx with
    | 0 => simp [nextLayer]
    | 1 => simp [nextLayer]
    | (k + 2) =>
      have hk : k < rest.length := by
        simp [List.length_cons] at h
        omega
      have hmod : ((k + 2) % 2 == 1) = (k % 2 == 1) := by
        rw [Nat.add_mod_right]
      have hdiv : (k + 2) / 2 = k / 2 + 1 := by omega
      have hstep := ih k hk
      rw [hmod, hdiv]
      have hRHS : (nextLayer cfg zero (a :: b :: rest)).getD (k / 2 + 1) 0
          = (nextLayer cfg zero rest).getD (k / 2) 0 := rfl
      rw [hRHS, ← hstep]
      cases hb : (k % 2 == 1) with
      | true =>
        have hk1 : k ≥ 1 := by
          have := beq_iff_eq.mp hb
          omega
        simp only [if_true]
        have e1 : (a :: b :: rest).getD (k + 2 - 1) zero = rest.getD (k - 1) zero := by
          have : k + 2 - 1 = (k - 1) + 2 := by omega
          rw [this]
          rfl
        rw [e1]
        rfl
      | false =>
        simp only [Bool.false_eq_true, if_false]
        rfl

lemma chainFold_cons (cfg : PoseidonCfg) (cur s : F) (sibs : List F) (b : Bool)
    (idxs : List Bool) :
    chainFold cfg cur (s :: sibs) (b :: idxs)
      = chainFold cfg (if b then hash2 cfg s cur else hash2 cfg cur s) sibs idxs := rfl

lemma proofLoop_fold (cfg : PoseidonCfg) :
    ∀ (count : Nat) (layer : List F) (idx level : Nat), idx < layer.length →
      chainFold cfg (layer.getD idx 0) (proofLoop cfg layer idx level count).1
          (proofLoop cfg layer idx level count).2
        = (buildLayers cfg layer level count).getD (idx / 2 ^ count) 0
      ∧ idx / 2 ^ count < (buildLayers cfg layer level count).length := by
  intro count
  induction count with
  | zero =>
    intro layer idx level h
    constructor
    · simp [proofLoop, chainFold, buildLayers]
    · simpa using h
  | succ count ih =>
    intro layer idx level h
    have hlen : idx / 2 < (nextLayer cfg (zeros cfg level) layer).length := by
      rw [nextLayer_length]
      omega
    have ihh := ih (nextLayer cfg (zeros cfg level) layer) (idx / 2) (level + 1) hlen
    have hstep := chainStep_eq_nextLayer cfg (zeros cfg level) layer idx h
    have hdd : idx / 2 / 2 ^ count = idx / 2 ^ (count + 1) := by
      rw [Nat.div_div_eq_div_mul]
      congr 1
      ring
    have hbuild : buildLayers cfg layer level (count + 1)
        = buildLayers cfg (nextLayer cfg (zeros cfg level) layer) (level + 1) count := rfl
    constructor
    · simp only [proofLoop, chainFold_cons]
      cases hb : (idx % 2 == 1) with
      | true =>
        rw [hb] at hstep
        simp only [if_true] at hstep ⊢
        rw [hstep, hbuild, ← hdd]
        exact ihh.1
      | false =>
        rw [hb] at hstep
        simp only [Bool.false_eq_true, if_false] at hstep ⊢
        rw [hstep, hbuild, ← hdd]
        exact ihh.1
    · rw [hbuild, ← hdd]
      exact ihh.2

/-- C4 (amended with the depth-20 capacity bound `leaves.length ≤ 2 ^ 20`):
for every leaf list within the tree's capacity and every index below the
number of leaves, the proof extracted by `SparseMerkleTree::proof` verifies
against `SparseMerkleTree::root` via `verify_proof`. -/
theorem merkle_proof_roundtrip (cfg : PoseidonCfg) (leaves : List F) (i : Nat)
    (hi : i < leaves.length) (hcap : leaves.length ≤ 2 ^ MERKLE_DEPTH) :
    verify_proof cfg (leaves.getD i 0) (tree_proof cfg leaves i)
      (treeRoot cfg leaves) = true := by
  have hne : leaves.isEmpty = false := by
    cases leaves with
    | nil => simp at hi
    | cons a t => rfl
  have hmain := proofLoop_fold cfg MERKLE_DEPTH leaves i 0 hi
  have hz : i / 2 ^ MERKLE_DEPTH = 0 := Nat.div_eq_of_lt (lt_of_lt_of_le hi hcap)
  rw [hz] at hmain
  show (chainFold cfg (leaves.getD i 0) (proofLoop cfg leaves i 0 MERKLE_DEPTH).1
      (proofLoop cfg leaves i 0 MERKLE_DEPTH).2 == treeRoot cfg leaves) = true
  rw [hmain.1, treeRoot, hne]
  simp

/-- Witness for C4 on a concrete three-leaf tree. -/
theorem merkle_proof_roundtrip_witness :
    (1 : Nat) < ([4, 7, 9] : List F).length ∧ ([4, 7, 9] : List F).length ≤ 2 ^ MERKLE_DEPTH ∧
    verify_proof cfgW (([4, 7, 9] : List F).getD 1 0) (tree_proof cfgW [4, 7, 9] 1)
      (treeRoot cfgW [4, 7, 9]) = true :=
  ⟨by decide, by decide, merkle_proof_roundtrip cfgW [4, 7, 9] 1 (by decide) (by decide)⟩

/-! ## Behaviour beyond the depth-20 capacity

Under the degenerate configuration `cfgId` the permutation is the identity
and `hash2 a b = a`, which lets the tree algorithms be evaluated in closed
form on a tree of `2 ^ 20 + 1` leaves: the claim's round-trip property
fails there, because `root` always hashes exactly 20 levels and returns
entry 0 of the final layer while the proof chain for the last leaf ends at
entry 1. -/

lemma hash2_cfgId (a b : F) : hash2 cfgId a b = a := by
  have h : hash2 cfgId a b = 0 + a := rfl
  rw [h, zero_add]

lemma nextLayer_cfgId (z : F) :
    ∀ k : Nat, nextLayer cfgId z (List.replicate (2 * k) 0 ++ [1])
      = List.replicate k 0 ++ [1] := by
  intro k
  induction k with
  | zero =>
    show nextLayer cfgId z [1] = [1]
    show [hash2 cfgId 1 z] = [1]
    rw [hash2_cfgId]
  | succ k ih =>
    have h2 : 2 * (k + 1) = 2 * k + 1 + 1 := by ring
    rw [h2, List.replicate_succ, List.replicate_succ, List.cons_append, List.cons_append]
    show hash2 cfgId 0 0 :: nextLayer cfgId z (List.replicate (2 * k) 0 ++ [1])
      = List.replicate (k + 1) 0 ++ [1]
    rw [ih, hash2_cfgId, List.replicate_succ, List.cons_append]

lemma buildLayers_cfgId :
    ∀ (count n level : Nat), count ≤ n →
      buildLayers cfgId (List.replicate (2 ^ n) 0 ++ [1]) level count
        = List.replicate (2 ^ (n - count)) 0 ++ [1] := by
  intro count
  induction count with
  | zero =>
    intro n level h
    simp [buildLayers]
  | succ count ih =>
    intro n level h
    have hn : n = (n - 1) + 1 := by omega
    have h2 : (2 : Nat) ^ n = 2 * 2 ^ (n - 1) := by
      conv_lhs => rw [hn]
      rw [pow_succ]
      ring
    show buildLayers cfgId
        (nextLayer cfgId (zeros cfgId level) (List.replicate (2 ^ n) 0 ++ [1]))
        (level + 1) count = _
    rw [h2, nextLayer_cfgId, ih (n - 1) (level + 1) (by omega)]
    have : n - 1 - count = n - (count + 1) := by omega
    rw [this]

lemma isEmpty_append_singleton (l : List F) (x : F) : (l ++ [x]).isEmpty = false := by
  cases l <;> rfl

lemma length_replicate_append (m : Nat) :
    (List.replicate m (0 : F) ++ [1]).length = m + 1 := by
  rw [List.length_append, List.length_replicate]
  rfl

lemma treeRoot_cfgId_big :
    treeRoot cfgId (List.replicate (2 ^ 20) 0 ++ [1]) = 0 := by
  have hne : (List.replicate (2 ^ 20) (0 : F) ++ [1]).isEmpty = false :=
    isEmpty_append_singleton _ _
  rw [treeRoot, hne]
  simp only [Bool.false_eq_true, if_false]
  rw [show MERKLE_DEPTH = 20 from rfl, buildLayers_cfgId 20 20 0 le_rfl]
  decide

lemma proofLoop_cfgId_indices :
    ∀ (count n level : Nat), count ≤ n →
      (proofLoop cfgId (List.replicate (2 ^ n) 0 ++ [1]) (2 ^ n) level count).2
        = List.replicate count false := by
  intro count
  induction count with
  | zero => intro n level h; rfl
  | succ count ih =>
    intro n level h
    have h2 : (2 : Nat) ^ n = 2 * 2 ^ (n - 1) := by
      conv_lhs => rw [show n = (n - 1) + 1 from by omega]
      rw [pow_succ]
      ring
    have heven : (2 ^ n % 2 == 1) = false := by
      have hm : 2 ^ n % 2 = 0 := by omega
      rw [hm]
      rfl
    have hhalf : 2 ^ n / 2 = 2 ^ (n - 1) := by omega
    simp only [proofLoop]
    rw [heven, hhalf, h2, nextLayer_cfgId, ih (n - 1) (level + 1) (by omega),
      List.replicate_succ]

lemma chainFold_allFalse :
    ∀ (sibs : List F) (k : Nat) (cur : F),
      chainFold cfgId cur sibs (List.replicate k false) = cur := by
  intro sibs
  induction sibs with
  | nil => intro k cur; rfl
  | cons s rest ih =>
    intro k cur
    cases k with
    | zero => rfl
    | succ k =>
      rw [List.replicate_succ, chainFold_cons]
      simp only [Bool.false_eq_true, if_false]
      rw [hash2_cfgId]
      exact ih k cur

lemma getD_replicate_append :
    ∀ m : Nat, (List.replicate m (0 : F) ++ [1]).getD m 0 = 1 := by
  intro m
  induction m with
  | zero => rfl
  | succ m ih =>
    rw [List.replicate_succ, List.cons_append]
    exact ih

set_option maxRecDepth 4000 in
/-- Counterexample to C4 as stated (no capacity bound): on the tree with
`2 ^ 20 + 1` leaves, the proof for the last leaf does not verify against
the root, although the index is strictly below the number of leaves. -/
theorem merkle_proof_roundtrip_counterexample :
    (2 ^ 20 : Nat) < (List.replicate (2 ^ 20) (0 : F) ++ [1]).length ∧
    verify_proof cfgId ((List.replicate (2 ^ 20) (0 : F) ++ [1]).getD (2 ^ 20) 0)
      (tree_proof cfgId (List.replicate (2 ^ 20) (0 : F) ++ [1]) (2 ^ 20))
      (treeRoot cfgId (List.replicate (2 ^ 20) (0 : F) ++ [1])) = false := by
  constructor
  · rw [length_replicate_append]
    exact Nat.lt_succ_self _
  · have hpath : (proofLoop cfgId (List.replicate (2 ^ 20) (0 : F) ++ [1]) (2 ^ 20) 0
        MERKLE_DEPTH).2 = List.replicate 20 false :=
      proofLoop_cfgId_indices 20 20 0 le_rfl
    simp only [verify_proof, tree_proof]
    rw [hpath, getD_replicate_append, chainFold_allFalse, treeRoot_cfgId_big]
    decide

/-! ## SDK vs indexer root computation (C7) -/

lemma sdkZeros_eq (cfg : PoseidonCfg) : ∀ i, sdkZeros cfg i = zeros cfg i := by
  intro i
  induction i with
  | zero => rfl
  | succ i ih => rw [sdkZeros, zeros, ih]

lemma sdkNextLayer_eq (cfg : PoseidonCfg) (z : F) :
    ∀ l, sdkNextLayer cfg z l = nextLayer cfg z l := by
  apply listPairInduction
  · rfl
  · intro a; rfl
  · intro a b rest ih
    show hash2 cfg a b :: sdkNextLayer cfg z rest = hash2 cfg a b :: nextLayer cfg z rest
    rw [ih]

lemma sdkBuildLayers_eq (cfg : PoseidonCfg) :
    ∀ (count : Nat) (layer : List F) (level : Nat),
      sdkBuildLayers cfg layer level count = buildLayers cfg layer level count := by
  intro count
  induction count with
  | zero => intro layer level; rfl
  | succ count ih =>
    intro layer level
    show sdkBuildLayers cfg (sdkNextLayer cfg (sdkZeros cfg level) layer) (level + 1) count
      = buildLayers cfg (nextLayer cfg (zeros cfg level) layer) (level + 1) count
    rw [sdkZeros_eq, sdkNextLayer_eq, ih]

lemma empty_root_eq_zeros (cfg : PoseidonCfg) :
    empty_root cfg = zeros cfg MERKLE_DEPTH := by
  have key : ∀ n : Nat, (List.range n).foldl (fun h _ => hash2 cfg h h) 0 = zeros cfg n := by
    intro n
    induction n with
    | zero => rfl
    | succ n ih => rw [List.range_succ, List.foldl_append, ih, List.foldl_cons]; rfl
  exact key MERKLE_DEPTH

/-- C7: the SDK's `compute_root` and the indexer's `SparseMerkleTree::root`
agree on every ordered leaf list; both hash upward exactly `MERKLE_DEPTH`
(= 20) levels; the SDK's iterated `empty_root` equals the indexer's
precomputed zero chain at depth 20, which is also the empty tree's root. -/
theorem sdk_indexer_root_agree (cfg : PoseidonCfg) (leaves : List F) :
    compute_root cfg leaves = treeRoot cfg leaves ∧
    empty_root cfg = zeros cfg MERKLE_DEPTH ∧
    treeRoot cfg [] = zeros cfg MERKLE_DEPTH := by
  refine ⟨?_, empty_root_eq_zeros cfg, rfl⟩
  rw [compute_root, treeRoot]
  cases h : leaves.isEmpty with
  | true => simp [empty_root_eq_zeros]
  | false => simp [sdkBuildLayers_eq]

/-! ## Domain types and the transfer circuit (r14-types, r14-circuit) -/

/-- `Note` of `r14-types/src/note.rs`; `value : u64` and `app_tag : u32`
are embedded as `Nat` (bounds appear as hypotheses where relevant). -/
structure Note where
  value : Nat
  app_tag : Nat
  owner : F
  nonce : F

/-- `commitment` of `r14-poseidon/src/lib.rs`:
`poseidon_hash [value, app_tag, owner, nonce]`. -/
def commitment (cfg : PoseidonCfg) (note : Note) : F :=
  poseidon_hash cfg [(note.value : F), (note.app_tag : F), note.owner, note.nonce]

/-- `owner_hash` of `r14-poseidon/src/lib.rs`. -/
def owner_hash (cfg : PoseidonCfg) (sk : F) : F := poseidon_hash cfg [sk]

/-- `PublicInputs` of `r14-circuit/src/lib.rs`. -/
structure PublicInputs where
  old_root : F
  nullifier : F
  out_commitment_0 : F
  out_commitment_1 : F

/-- `PublicInputs::to_vec`: the fixed order
`[old_root, nullifier, out_commitment_0, out_commitment_1]`. -/
def PublicInputs.to_vec (pis : PublicInputs) : List F :=
  [pis.old_root, pis.nullifier, pis.out_commitment_0, pis.out_commitment_1]

/-- Value semantics of `verify_merkle_path` in
`r14-circuit/src/merkle_gadget.rs`: at each level
`left = select(is_right, sibling, cur)`, `right = select(is_right, cur,
sibling)`, `cur = hash2_var(left, right)`; the final equality with the
root becomes a constraint pair in `transferConstraints`. -/
def merkleChainVar (cfg : PoseidonCfg) (leaf : F) (pvars : List (F × Bool)) : F :=
  pvars.foldl
    (fun cur pr =>
      hash2_var cfg (if pr.2 then pr.1 else cur) (if pr.2 then cur else pr.1)) leaf

/-- The witness-allocation loop of `TransferCircuit::generate_constraints`
reads exactly `MERKLE_DEPTH` siblings and index bits from the supplied
path. -/
def pathVars (path : MerklePath) : List (F × Bool) :=
  (List.range MERKLE_DEPTH).map
    (fun i => (path.siblings.getD i 0, path.indices.getD i false))

/-- The public-input assignments computed natively in the closures of
`generate_constraints`, identical to the recomputation in `prove` of
`r14-circuit/src/lib.rs`. -/
def derivedPublicInputs (cfg : PoseidonCfg) (sk : F) (consumed : Note)
    (path : MerklePath) (c0 c1 : Note) : PublicInputs :=
  { old_root := chainFold cfg (commitment cfg consumed) path.siblings path.indices
    nullifier := poseidon_hash cfg [sk, consumed.nonce]
    out_commitment_0 := commitment cfg c0
    out_commitment_1 := commitment cfg c1 }

/-- The value-conservation constraint of `generate_constraints`:
`consumed_value.enforce_equal(&(created_values[0] + created_values[1]))`. -/
def conservationConstraint (consumed c0 c1 : Note) : F × F :=
  ((consumed.value : F), (c0.value : F) + (c1.value : F))

/-- The equality constraints enforced by
`TransferCircuit::generate_constraints` on a fully assigned witness, as
pairs whose components must be equal for `cs.is_satisfied()` to hold, in
source order: ownership, Merkle root, nullifier, the two output
commitments, value conservation and the two app-tag checks.  The Poseidon
gadget's internal constraints are satisfied by construction for the values
the gadget itself witnesses, so these pairs are exactly what can fail on a
fully assigned witness. -/
def transferConstraints (cfg : PoseidonCfg) (sk : F) (consumed : Note)
    (path : MerklePath) (c0 c1 : Note) : List (F × F) :=
  let pis := derivedPublicInputs cfg sk consumed path c0 c1
  let consumed_cm := poseidon_hash_var cfg
    [(consumed.value : F), (consumed.app_tag : F), consumed.owner, consumed.nonce]
  [(poseidon_hash_var cfg [sk], consumed.owner),
   (merkleChainVar cfg consumed_cm (pathVars path), pis.old_root),
   (poseidon_hash_var cfg [sk, consumed.nonce], pis.nullifier),
   (poseidon_hash_var cfg [(c0.value : F), (c0.app_tag : F), c0.owner, c0.nonce],
     pis.out_commitment_0),
   (poseidon_hash_var cfg [(c1.value : F), (c1.app_tag : F), c1.owner, c1.nonce],
     pis.out_commitment_1),
   conservationConstraint consumed c0 c1,
   ((consumed.app_tag : F), (c0.app_tag : F)),
   ((consumed.app_tag : F), (c1.app_tag : F))]

/-- `ConstraintSystem::is_satisfied`: every enforced equality holds. -/
def csSatisfied (constraints : List (F × F)) : Bool :=
  constraints.all (fun pr => pr.1 == pr.2)

/-! ## Groth16 driver (r14-circuit/src/lib.rs)

The pairing-based argument itself lives in ark-groth16, outside this
repository; it is modelled here by the contract the spec states for it
(one setup run per circuit shape, a proof binds the prover's public-input
vector and verifies exactly when the witness satisfied the constraint
system and the keys come from the same setup run). -/

/-- Modelled from the spec: the `SynthesisError` kind ark-groth16's
verifier returns on a shape mismatch, as opposed to an `Ok(false)`
verification failure. -/
inductive SynthErr where
  | malformedVerifyingKey
  deriving DecidableEq

/-- Modelled from the spec: an ark-groth16 proving key, reduced to the
identity of the setup run that produced it. -/
structure ProvingKey where
  setupId : Nat

/-- Modelled from the spec: an ark-groth16 verifying key: the identity of
its setup run plus the length of its `gamma_abc_g1` (`ic`) vector, which
is one more than the number of public inputs of the circuit shape. -/
structure VerifyingKey where
  setupId : Nat
  icLength : Nat

/-- Modelled from the spec: a Groth16 proof, reduced to what the pairing
check establishes: which setup run produced it, which public-input vector
the prover bound, and whether the prover's witness satisfied the
constraint system. -/
structure Groth16Proof where
  setupId : Nat
  pubInputs : List F
  sat : Bool

/-- Modelled from the spec: `Groth16::verify_with_processed_vk` — an
`Except.error` on a shape mismatch between the public-input vector and the
verifying key's `ic` vector (`ic.length = inputs.length + 1` must hold),
otherwise `Except.ok` with the boolean outcome of the pairing check. -/
def groth16Verify (vk : VerifyingKey) (proof : Groth16Proof) (pubs : List F) :
    Except SynthErr Bool :=
  if pubs.length + 1 ≠ vk.icLength then Except.error SynthErr.malformedVerifyingKey
  else Except.ok (proof.setupId == vk.setupId && proof.sat && proof.pubInputs == pubs)

/-- `setup` of `r14-circuit/src/lib.rs`: one Groth16 setup run for the
transfer circuit shape (4 public inputs, so `ic` has length 5), yielding a
matching proving/verifying key pair. -/
def setup (randomness : Nat) : ProvingKey × VerifyingKey :=
  ({ setupId := randomness }, { setupId := randomness, icLength := 5 })

/-- `prove` of `r14-circuit/src/lib.rs`: computes the public inputs
natively (Merkle chain over the supplied path, nullifier, output
commitments) and produces a proof binding them; in the modelled Groth16
layer the proof records whether the fully assigned constraint system was
satisfied. -/
def prove (cfg : PoseidonCfg) (pk : ProvingKey) (sk : F) (consumed : Note)
    (path : MerklePath) (c0 c1 : Note) : Groth16Proof × PublicInputs :=
  let pis := derivedPublicInputs cfg sk consumed path c0 c1
  ({ setupId := pk.setupId
     pubInputs := pis.to_vec
     sat := csSatisfied (transferConstraints cfg sk consumed path c0 c1) }, pis)

/-- `verify_offchain` of `r14-circuit/src/lib.rs`:
`verify_with_processed_vk(...).unwrap_or(false)`. -/
def verify_offchain (vk : VerifyingKey) (proof : Groth16Proof)
    (pis : PublicInputs) : Bool :=
  match groth16Verify vk proof pis.to_vec with
  | Except.ok b => b
  | Except.error _ => false

/-! ## Transfer circuit lemmas -/

lemma hash2_var_eq (cfg : PoseidonCfg) (h : cfg.alpha < 2 ^ 64) (a b : F) :
    hash2_var cfg a b = hash2 cfg a b := poseidon_hash_var_eq cfg h [a, b]

lemma merkleChainVar_eq_chainFold (cfg : PoseidonCfg) (h : cfg.alpha < 2 ^ 64)
    (leaf : F) (sibs : List F) (idxs : List Bool) :
    merkleChainVar cfg leaf (sibs.zip idxs) = chainFold cfg leaf sibs idxs := by
  unfold merkleChainVar chainFold
  apply List.foldl_ext
  intro c pr _
  cases hb : pr.2 <;> simp [hash2_var_eq cfg h]

lemma range_map_getD_zip :
    ∀ (n : Nat) (sibs : List F) (idxs : List Bool), sibs.length = n → idxs.length = n →
      (List.range n).map (fun i => (sibs.getD i 0, idxs.getD i false)) = sibs.zip idxs := by
  intro n
  induction n with
  | zero =>
    intro sibs idxs hs hi
    rw [List.length_eq_zero] at hs hi
    subst hs
    subst hi
    rfl
  | succ n ih =>
    intro sibs idxs hs hi
    cases sibs with
    | nil => simp at hs
    | cons s sibs =>
      cases idxs with
      | nil => simp at hi
      | cons b idxs =>
        rw [List.range_succ_eq_map, List.map_cons, List.map_map]
        have hmaps : (List.range n).map
            ((fun i => ((s :: sibs).getD i 0, (b :: idxs).getD i false)) ∘ Nat.succ)
            = (List.range n).map (fun i => (sibs.getD i 0, idxs.getD i false)) := by
          apply List.map_congr_left
          intro i _
          rfl
        have hs2 : sibs.length = n := by simp at hs; omega
        have hi2 : idxs.length = n := by simp at hi; omega
        rw [hmaps, ih sibs idxs hs2 hi2]
        rfl

/-- C3: a fully assigned transfer witness whose consumed value differs, as
a field element, from the sum of the two created values leaves the
generated constraint system unsatisfied. -/
theorem transfer_value_mismatch_unsatisfied (cfg : PoseidonCfg) (sk : F)
    (consumed : Note) (path : MerklePath) (c0 c1 : Note)
    (hneq : (consumed.value : F) ≠ (c0.value : F) + (c1.value : F)) :
    csSatisfied (transferConstraints cfg sk consumed path c0 c1) = false := by
  have hmem : conservationConstraint consumed c0 c1
      ∈ transferConstraints cfg sk consumed path c0 c1 := by
    unfold transferConstraints
    exact List.mem_cons_of_mem _ (List.mem_cons_of_mem _ (List.mem_cons_of_mem _
      (List.mem_cons_of_mem _ (List.mem_cons_of_mem _ (List.mem_cons_self _ _)))))
  unfold csSatisfied
  refine List.all_eq_false.mpr ⟨_, hmem, ?_⟩
  simp only [conservationConstraint, beq_iff_eq]
  exact hneq

/-- Witness for C3: spending 1000 into 600 + 300 is rejected. -/
theorem transfer_value_mismatch_unsatisfied_witness :
    (((1000 : Nat) : F) ≠ ((600 : Nat) : F) + ((300 : Nat) : F)) ∧
    csSatisfied (transferConstraints cfgW 5 ⟨1000, 1, 5, 6⟩
      ⟨List.replicate 20 0, List.replicate 20 false⟩ ⟨600, 1, 5, 7⟩ ⟨300, 1, 5, 8⟩)
      = false :=
  ⟨by decide, transfer_value_mismatch_unsatisfied cfgW 5 ⟨1000, 1, 5, 6⟩
    ⟨List.replicate 20 0, List.replicate 20 false⟩ ⟨600, 1, 5, 7⟩ ⟨300, 1, 5, 8⟩
    (by decide)⟩

/-- C1: for a correctly constructed witness bundle — consumed note owned by
`Hash([secret_key])`, a depth-20 Merkle path, created values summing to the
consumed value and matching app tags — `prove` with keys from `setup`
yields a proof accepted by `verify_offchain`, and the derived public-input
vector is exactly
`[old_root, nullifier, out_commitment_0, out_commitment_1]`. -/
theorem transfer_prove_verify_roundtrip (cfg : PoseidonCfg) (seed : Nat) (sk : F)
    (consumed c0 c1 : Note) (path : MerklePath)
    (halpha : cfg.alpha < 2 ^ 64)
    (howner : consumed.owner = owner_hash cfg sk)
    (hsib : path.siblings.length = MERKLE_DEPTH)
    (hidx : path.indices.length = MERKLE_DEPTH)
    (hval : consumed.value = c0.value + c1.value)
    (htag0 : c0.app_tag = consumed.app_tag)
    (htag1 : c1.app_tag = consumed.app_tag) :
    verify_offchain (setup seed).2 (prove cfg (setup seed).1 sk consumed path c0 c1).1
        (prove cfg (setup seed).1 sk consumed path c0 c1).2 = true ∧
    (prove cfg (setup seed).1 sk consumed path c0 c1).2.to_vec
      = [chainFold cfg (commitment cfg consumed) path.siblings path.indices,
         poseidon_hash cfg [sk, consumed.nonce],
         commitment cfg c0, commitment cfg c1] := by
  have hv := poseidon_hash_var_eq cfg halpha
  have hsat : csSatisfied (transferConstraints cfg sk consumed path c0 c1) = true := by
    unfold csSatisfied transferConstraints derivedPublicInputs conservationConstraint
    simp only [List.all_cons, List.all_nil, Bool.and_true, Bool.and_eq_true, beq_iff_eq]
    refine ⟨?_, ?_, ?_, ?_, ?_, ?_, ?_, ?_⟩
    · rw [hv]
      exact howner.symm
    · rw [pathVars, range_map_getD_zip MERKLE_DEPTH path.siblings path.indices hsib hidx,
        merkleChainVar_eq_chainFold cfg halpha, hv]
      rfl
    · rw [hv]
    · rw [hv]
      rfl
    · rw [hv]
      rfl
    · rw [hval]
      exact Nat.cast_add c0.value c1.value
    · exact congrArg Nat.cast htag0.symm
    · exact congrArg Nat.cast htag1.symm
  constructor
  · have hok : groth16Verify (setup seed).2 (prove cfg (setup seed).1 sk consumed path c0 c1).1
        ((prove cfg (setup seed).1 sk consumed path c0 c1).2.to_vec) = Except.ok true := by
      unfold groth16Verify
      rw [if_neg (fun hne => hne rfl)]
      have hb : ((prove cfg (setup seed).1 sk consumed path c0 c1).1.setupId
            == (setup seed).2.setupId
          && (prove cfg (setup seed).1 sk consumed path c0 c1).1.sat
          && ((prove cfg (setup seed).1 sk consumed path c0 c1).1.pubInputs
            == (prove cfg (setup seed).1 sk consumed path c0 c1).2.to_vec)) = true := by
        have hs : (prove cfg (setup seed).1 sk consumed path c0 c1).1.sat = true := hsat
        simp [hs]
        exact ⟨rfl, rfl⟩
      rw [hb]
    unfold verify_offchain
    rw [hok]
  · rfl

/-- Witness for C1: a concrete 1000 = 700 + 300 transfer bundle. -/
theorem transfer_prove_verify_roundtrip_witness :
    cfgW.alpha < 2 ^ 64 ∧
    (verify_offchain (setup 42).2
        (prove cfgW (setup 42).1 5 ⟨1000, 1, owner_hash cfgW 5, 6⟩
          ⟨List.replicate 20 2, List.replicate 20 true⟩ ⟨700, 1, 8, 9⟩ ⟨300, 1, 10, 11⟩).1
        (prove cfgW (setup 42).1 5 ⟨1000, 1, owner_hash cfgW 5, 6⟩
          ⟨List.replicate 20 2, List.replicate 20 true⟩ ⟨700, 1, 8, 9⟩ ⟨300, 1, 10, 11⟩).2
        = true ∧
     (prove cfgW (setup 42).1 5 ⟨1000, 1, owner_hash cfgW 5, 6⟩
        ⟨List.replicate 20 2, List.replicate 20 true⟩ ⟨700, 1, 8, 9⟩ ⟨300, 1, 10, 11⟩).2.to_vec
       = [chainFold cfgW (commitment cfgW ⟨1000, 1, owner_hash cfgW 5, 6⟩)
            (List.replicate 20 2) (List.replicate 20 true),
          poseidon_hash cfgW [5, 6],
          commitment cfgW ⟨700, 1, 8, 9⟩, commitment cfgW ⟨300, 1, 10, 11⟩]) :=
  ⟨by decide, transfer_prove_verify_roundtrip cfgW 42 5 ⟨1000, 1, owner_hash cfgW 5, 6⟩
    ⟨700, 1, 8, 9⟩ ⟨300, 1, 10, 11⟩ ⟨List.replicate 20 2, List.replicate 20 true⟩
    (by decide) rfl (by decide) (by decide) (by decide) rfl rfl⟩

/-- C8: `verify_offchain` is a total boolean function (it never throws: the
underlying verifier's `Result` is collapsed with `unwrap_or(false)`), and
at the underlying verifier a wrong-shape public-input vector surfaces as
the distinct `Except.error` class while an ordinary verification failure is
`Except.ok false`. -/
theorem verify_offchain_error_classes (vk : VerifyingKey) (proof : Groth16Proof)
    (pis : PublicInputs) :
    (verify_offchain vk proof pis = false ∨ verify_offchain vk proof pis = true) ∧
    (vk.icLength ≠ pis.to_vec.length + 1 →
      groth16Verify vk proof pis.to_vec = Except.error SynthErr.malformedVerifyingKey ∧
      verify_offchain vk proof pis = false) ∧
    (vk.icLength = pis.to_vec.length + 1 →
      groth16Verify vk proof pis.to_vec = Except.ok (verify_offchain vk proof pis)) := by
  refine ⟨?_, ?_, ?_⟩
  · cases h : verify_offchain vk proof pis
    · exact Or.inl rfl
    · exact Or.inr rfl
  · intro hne
    have hcond : pis.to_vec.length + 1 ≠ vk.icLength := fun h => hne h.symm
    constructor
    · unfold groth16Verify
      rw [if_pos hcond]
    · unfold verify_offchain groth16Verify
      rw [if_pos hcond]
  · intro heq
    have hcond : ¬(pis.to_vec.length + 1 ≠ vk.icLength) := fun h => h heq.symm
    simp only [verify_offchain, groth16Verify, if_neg hcond]

/-- Witness for C8: a verifying key whose `ic` vector has the wrong length
is rejected through the error class, and `verify_offchain` returns
`false`. -/
theorem verify_offchain_error_classes_witness :
    ((⟨0, 3⟩ : VerifyingKey).icLength ≠ (PublicInputs.mk 0 0 0 0).to_vec.length + 1) ∧
    (groth16Verify ⟨0, 3⟩ ⟨0, [], false⟩ (PublicInputs.mk 0 0 0 0).to_vec
        = Except.error SynthErr.malformedVerifyingKey ∧
      verify_offchain ⟨0, 3⟩ ⟨0, [], false⟩ (PublicInputs.mk 0 0 0 0) = false) :=
  ⟨by decide,
    (verify_offchain_error_classes ⟨0, 3⟩ ⟨0, [], false⟩ (PublicInputs.mk 0 0 0 0)).2.1
      (by decide)⟩

/-- C10: because `Note.value` is a `u64`, the circuit's field-arithmetic
conservation constraint holds exactly when the values are conserved as
unbounded integers: the sum of two `u64` values is below `2 ^ 65`, far
below the field modulus, so no wraparound is reachable through the
`Note`-typed interface. -/
theorem value_conservation_iff_nat (consumed c0 c1 : Note)
    (hv : consumed.value < 2 ^ 64) (h0 : c0.value < 2 ^ 64) (h1 : c1.value < 2 ^ 64) :
    ((conservationConstraint consumed c0 c1).1 = (conservationConstraint consumed c0 c1).2)
      ↔ consumed.value = c0.value + c1.value := by
  unfold conservationConstraint
  constructor
  · intro h
    have h2 : ((consumed.value : Nat) : F) = ((c0.value + c1.value : Nat) : F) := by
      rw [Nat.cast_add]
      exact h
    have hlt : consumed.value < frModulus := lt_trans hv (by decide)
    have hlt2 : c0.value + c1.value < frModulus := by
      have hs : c0.value + c1.value < 2 ^ 65 := by omega
      exact lt_trans hs (by decide)
    have h3 := congrArg ZMod.val h2
    rwa [ZMod.val_cast_of_lt hlt, ZMod.val_cast_of_lt hlt2] at h3
  · intro h
    rw [h, Nat.cast_add]

/-- Witness for C10 at 5 = 2 + 3. -/
theorem value_conservation_iff_nat_witness :
    ((5 : Nat) < 2 ^ 64 ∧ (2 : Nat) < 2 ^ 64 ∧ (3 : Nat) < 2 ^ 64) ∧
    (((conservationConstraint ⟨5, 0, 0, 0⟩ ⟨2, 0, 0, 0⟩ ⟨3, 0, 0, 0⟩).1
        = (conservationConstraint ⟨5, 0, 0, 0⟩ ⟨2, 0, 0, 0⟩ ⟨3, 0, 0, 0⟩).2)
      ↔ (5 : Nat) = 2 + 3) :=
  ⟨⟨by decide, by decide, by decide⟩,
    value_conservation_iff_nat ⟨5, 0, 0, 0⟩ ⟨2, 0, 0, 0⟩ ⟨3, 0, 0, 0⟩
      (by decide) (by decide) (by decide)⟩

/-! ## Range circuit (r14-circuits/src/range.rs) -/

/-- Limb 0 of `into_bigint()`: the least-significant 64-bit limb of the
canonical representative (the source relies on the values being small). -/
def limb0 (x : F) : Nat := ZMod.val x % 2 ^ 64

/-- `u64::wrapping_sub` (arguments are limb-0 values, hence below
`2 ^ 64`). -/
def wrappingSub64 (a b : Nat) : Nat := (a + 2 ^ 64 - b) % 2 ^ 64

/-- Bit `i` witnessed by `enforce_range_bits`: `(v >> i) & 1 == 1` of the
natively computed `u64`. -/
def rangeBit (v i : Nat) : Bool := (v >>> i) &&& 1 == 1

/-- The reconstruction sum of `enforce_range_bits`:
`sum = Σ bit_i * 2^i` over `RANGE_BITS = 64` bits (the source doubles a
coefficient per iteration; here the coefficient is written `2 ^ i`). -/
def bitSum (v : Nat) : F :=
  (List.range 64).foldl (fun acc i => acc + (if rangeBit v i then (1 : F) else 0) * 2 ^ i) 0

/-- The equality constraints of `RangeCircuit::generate_constraints` on a
fully assigned witness, in source order: the Poseidon commitment binding,
then the 64-bit decompositions of `x - min` and `max - x` (field
subtraction on the right, bit witnesses from the `u64` wrapping
subtraction of limb-0 values on the left). -/
def rangeConstraints (cfg : PoseidonCfg) (x nonce mn mx : F) : List (F × F) :=
  [(poseidon_hash_var cfg [x, nonce], poseidon_hash cfg [x, nonce]),
   (bitSum (wrappingSub64 (limb0 x) (limb0 mn)), x - mn),
   (bitSum (wrappingSub64 (limb0 mx) (limb0 x)), mx - x)]

lemma limb0_cast (n : Nat) (h : n < 2 ^ 64) : limb0 (n : F) = n := by
  unfold limb0
  rw [ZMod.val_cast_of_lt (lt_trans h (by decide))]
  exact Nat.mod_eq_of_lt h

lemma wrappingSub64_of_le (a b : Nat) (hba : b ≤ a) (ha : a < 2 ^ 64) :
    wrappingSub64 a b = a - b := by
  unfold wrappingSub64
  omega

lemma wrappingSub64_of_lt (a b : Nat) (hab : a < b) (hb : b ≤ 2 ^ 64) :
    wrappingSub64 a b = 2 ^ 64 - (b - a) := by
  unfold wrappingSub64
  omega

lemma bitSum_foldl (v : Nat) :
    ∀ (k : Nat) (a : F),
      (List.range k).foldl (fun acc i => acc + (if rangeBit v i then (1 : F) else 0) * 2 ^ i) a
        = a + ((v % 2 ^ k : Nat) : F) := by
  intro k
  induction k with
  | zero =>
    intro a
    simp [Nat.mod_one]
  | succ k ih =>
    intro a
    rw [List.range_succ, List.foldl_append, ih, List.foldl_cons, List.foldl_nil]
    have hsplit : v % 2 ^ (k + 1) = v % 2 ^ k + 2 ^ k * (v / 2 ^ k % 2) := by
      have h2 : (2 : Nat) ^ (k + 1) = 2 ^ k * 2 := by ring
      rw [h2, Nat.mod_mul]
    have hbit : rangeBit v k = (v / 2 ^ k % 2 == 1) := by
      unfold rangeBit
      rw [Nat.shiftRight_eq_div_pow, Nat.and_one_is_mod]
    rcases Nat.mod_two_eq_zero_or_one (v / 2 ^ k) with h | h
    · rw [hsplit, h, hbit, h]
      norm_num
    · rw [hsplit, h, hbit, h]
      push_cast
      simp
      ring
lemma bitSum_eq_cast (v : Nat) (hv : v < 2 ^ 64) : bitSum v = (v : F) := by
  unfold bitSum
  rw [bitSum_foldl v 64 0, Nat.mod_eq_of_lt hv, zero_add]

lemma pow64_cast_ne_zero : ((2 ^ 64 : Nat) : F) ≠ 0 := by
  intro hz
  have hdvd := (ZMod.natCast_zmod_eq_zero_iff_dvd (2 ^ 64) frModulus).mp hz
  have hle : frModulus ≤ 2 ^ 64 := Nat.le_of_dvd (by decide) hdvd
  have : (2 : Nat) ^ 64 < frModulus := by decide
  omega

/-- C5: with `min ≤ max`, both below `2 ^ 64`, the range circuit is
satisfied at `x = min` and at `x = max`, and unsatisfied for any `x < min`:
the wrapped field difference `x - min` cannot be decomposed into 64
bits. -/
theorem range_circuit_boundaries (cfg : PoseidonCfg) (nonce : F) (mn mx xval : Nat)
    (halpha : cfg.alpha < 2 ^ 64) (hmn : mn ≤ mx) (hmx : mx < 2 ^ 64) (hx : xval < mn) :
    csSatisfied (rangeConstraints cfg (mn : F) nonce (mn : F) (mx : F)) = true ∧
    csSatisfied (rangeConstraints cfg (mx : F) nonce (mn : F) (mx : F)) = true ∧
    csSatisfied (rangeConstraints cfg (xval : F) nonce (mn : F) (mx : F)) = false := by
  have hmn64 : mn < 2 ^ 64 := lt_of_le_of_lt hmn hmx
  have hx64 : xval < 2 ^ 64 := lt_trans hx hmn64
  have hv := poseidon_hash_var_eq cfg halpha
  refine ⟨?_, ?_, ?_⟩
  · unfold csSatisfied rangeConstraints
    simp only [List.all_cons, List.all_nil, Bool.and_true, Bool.and_eq_true, beq_iff_eq]
    refine ⟨hv _, ?_, ?_⟩
    · rw [limb0_cast mn hmn64, wrappingSub64_of_le mn mn le_rfl hmn64, Nat.sub_self,
        bitSum_eq_cast 0 (by decide), Nat.cast_zero, sub_self]
    · rw [limb0_cast mn hmn64, limb0_cast mx hmx,
        wrappingSub64_of_le mx mn hmn hmx,
        bitSum_eq_cast (mx - mn) (by omega), Nat.cast_sub hmn]
  · unfold csSatisfied rangeConstraints
    simp only [List.all_cons, List.all_nil, Bool.and_true, Bool.and_eq_true, beq_iff_eq]
    refine ⟨hv _, ?_, ?_⟩
    · rw [limb0_cast mn hmn64, limb0_cast mx hmx,
        wrappingSub64_of_le mx mn hmn hmx,
        bitSum_eq_cast (mx - mn) (by omega), Nat.cast_sub hmn]
    · rw [limb0_cast mx hmx, wrappingSub64_of_le mx mx le_rfl hmx, Nat.sub_self,
        bitSum_eq_cast 0 (by decide), Nat.cast_zero, sub_self]
  · unfold csSatisfied rangeConstraints
    refine List.all_eq_false.mpr ⟨_, List.mem_cons_of_mem _ (List.mem_cons_self _ _), ?_⟩
    simp only [beq_iff_eq]
    intro heq
    rw [limb0_cast xval hx64, limb0_cast mn hmn64,
      wrappingSub64_of_lt xval mn hx (le_of_lt hmn64),
      bitSum_eq_cast (2 ^ 64 - (mn - xval)) (by omega)] at heq
    have hsum : ((2 ^ 64 - (mn - xval) : Nat) : F) + (mn : F) = (xval : F) := by
      rw [heq]
      ring
    rw [← Nat.cast_add] at hsum
    have harith : 2 ^ 64 - (mn - xval) + mn = 2 ^ 64 + xval := by omega
    rw [harith, Nat.cast_add] at hsum
    have hz : ((2 ^ 64 : Nat) : F) = 0 := by
      have h0 : ((2 ^ 64 : Nat) : F) + (xval : F) = 0 + (xval : F) := by
        rw [zero_add]
        exact hsum
      exact add_right_cancel h0
    exact pow64_cast_ne_zero hz

/-- Witness for C5 at `min = 100`, `max = 1000`, `x = 99`. -/
theorem range_circuit_boundaries_witness :
    (cfgW.alpha < 2 ^ 64 ∧ (100 : Nat) ≤ 1000 ∧ (1000 : Nat) < 2 ^ 64 ∧ (99 : Nat) < 100) ∧
    (csSatisfied (rangeConstraints cfgW ((100 : Nat) : F) 7 ((100 : Nat) : F)
        ((1000 : Nat) : F)) = true ∧
     csSatisfied (rangeConstraints cfgW ((1000 : Nat) : F) 7 ((100 : Nat) : F)
        ((1000 : Nat) : F)) = true ∧
     csSatisfied (rangeConstraints cfgW ((99 : Nat) : F) 7 ((100 : Nat) : F)
        ((1000 : Nat) : F)) = false) :=
  ⟨⟨by decide, by decide, by decide, by decide⟩,
    range_circuit_boundaries cfgW 7 100 1000 99 (by decide) (by decide) (by decide)
      (by decide)⟩

/-! ## Cross-boundary serialization (r14-sdk/src/wallet.rs, serialize.rs)

Rust strings are rendered as lists of character codes (`List Nat`) and
byte vectors as lists of byte values. -/

/-- Fixed-width big-endian bytes of a natural number
(`into_bigint().to_bytes_be()` on a 4-limb `BigInt` gives exactly 32
bytes). -/
def beBytes : Nat → Nat → List Nat
  | 0, _ => []
  | k + 1, n => beBytes k (n / 256) ++ [n % 256]

/-- Fixed-width little-endian bytes (`serialize_compressed` for `Fr`
writes the 32 little-endian bytes of the canonical representative). -/
def leBytes : Nat → Nat → List Nat
  | 0, _ => []
  | k + 1, n => n % 256 :: leBytes k (n / 256)

/-- The value of a big-endian byte list. -/
def beValue : List Nat → Nat
  | [] => 0
  | b :: rest => b * 256 ^ rest.length + beValue rest

/-- Lowercase hex digit of a nibble, as a character code (the hex
crate). -/
def hexDigit (d : Nat) : Nat := if d < 10 then 48 + d else 87 + d

/-- `hex::encode`: two lowercase digits per byte. -/
def hexEncode : List Nat → List Nat
  | [] => []
  | b :: rest => hexDigit (b / 16) :: hexDigit (b % 16) :: hexEncode rest

/-- Value of one hex character code (`hex::decode` accepts both cases). -/
def hexDigitVal (c : Nat) : Option Nat :=
  if 48 ≤ c ∧ c ≤ 57 then some (c - 48)
  else if 97 ≤ c ∧ c ≤ 102 then some (c - 87)
  else if 65 ≤ c ∧ c ≤ 70 then some (c - 55)
  else none

/-- `hex::decode`: digit pairs; odd length or an invalid digit fails. -/
def hexDecode : List Nat → Option (List Nat)
  | [] => some []
  | [_] => none
  | c1 :: c2 :: rest =>
    match hexDigitVal c1, hexDigitVal c2, hexDecode rest with
    | some d1, some d2, some bs => some ((16 * d1 + d2) :: bs)
    | _, _, _ => none

/-- `fr_to_hex` of `r14-sdk/src/wallet.rs`: `"0x"` (codes 48, 120)
followed by the big-endian hex of the canonical representative. -/
def fr_to_hex (f : F) : List Nat := 48 :: 120 :: hexEncode (beBytes 32 (ZMod.val f))

/-- `rchunks(8)`: chunks of eight from the right; the leftmost chunk may be
shorter. -/
def chunksRight (l : List Nat) : List (List Nat) :=
  if l.length = 0 then []
  else if l.length ≤ 8 then [l]
  else l.drop (l.length - 8) :: chunksRight (l.take (l.length - 8))
termination_by l.length
decreasing_by
  simp only [List.length_take]
  omega

/-- Assemble little-endian 64-bit limbs (`BigInt::new`):
`Σ limb_i · 2 ^ (64 i)`. -/
def limbsValue : List Nat → Nat
  | [] => 0
  | x :: rest => x + 2 ^ 64 * limbsValue rest

/-- The byte-to-field tail of `hex_to_fr`: left-pad (or truncate) the
decoded bytes to 32, read the big-endian bytes into four little-endian
limbs (`rchunks(8)`, each limb `u64::from_be_bytes` of a zero-extended
chunk, stopping after limb 3), and reject values at or above the modulus
(`Fr::from_bigint`). -/
def frFromBeBytes (bytes : List Nat) : Option F :=
  let padded := List.replicate (32 - min bytes.length 32) 0 ++ bytes.take 32
  let v := limbsValue (((chunksRight padded).take 4).map beValue)
  if v < frModulus then some ((v : Nat) : F) else none

/-- `hex_to_fr` of `r14-sdk/src/wallet.rs`: strip an optional `0x`, then
hex-decode and convert. -/
def hex_to_fr (s : List Nat) : Option F :=
  let body := match s with
    | 48 :: 120 :: rest => rest
    | other => other
  match hexDecode body with
  | none => none
  | some bytes => frFromBeBytes bytes

/-- `serialize_fr` of `r14-sdk/src/serialize.rs`: the little-endian
canonical bytes, reversed once to big-endian, hex-encoded. -/
def serialize_fr (f : F) : List Nat := hexEncode ((leBytes 32 (ZMod.val f)).reverse)

/-! ## Serialization lemmas -/

lemma beBytes_length (k : Nat) : ∀ n, (beBytes k n).length = k := by
  induction k with
  | zero => intro n; rfl
  | succ k ih =>
    intro n
    rw [beBytes, List.length_append, ih]
    rfl

lemma beBytes_lt (k : Nat) : ∀ n, ∀ b ∈ beBytes k n, b < 256 := by
  induction k with
  | zero => intro n b hb; simp [beBytes] at hb
  | succ k ih =>
    intro n b hb
    rw [beBytes, List.mem_append] at hb
    rcases hb with h | h
    · exact ih (n / 256) b h
    · simp at h
      subst h
      exact Nat.mod_lt _ (by decide)

lemma beValue_append (l1 l2 : List Nat) :
    beValue (l1 ++ l2) = beValue l1 * 256 ^ l2.length + beValue l2 := by
  induction l1 with
  | nil => simp [beValue]
  | cons b rest ih =>
    rw [List.cons_append, beValue, beValue, ih, List.length_append]
    ring

lemma beValue_beBytes (k : Nat) : ∀ n, n < 256 ^ k → beValue (beBytes k n) = n := by
  induction k with
  | zero =>
    intro n h
    simp [Nat.pow_zero] at h
    simp [beBytes, beValue, h]
  | succ k ih =>
    intro n h
    have hdiv : n / 256 < 256 ^ k := by
      rw [Nat.div_lt_iff_lt_mul (by decide : 0 < 256)]
      calc n < 256 ^ (k + 1) := h
        _ = 256 ^ k * 256 := by ring
    rw [beBytes, beValue_append, ih (n / 256) hdiv]
    simp [beValue]
    omega

lemma hexDigitVal_hexDigit (d : Nat) (h : d < 16) : hexDigitVal (hexDigit d) = some d := by
  interval_cases d <;> decide

lemma hexDecode_hexEncode : ∀ bs : List Nat, (∀ b ∈ bs, b < 256) →
    hexDecode (hexEncode bs) = some bs := by
  intro bs
  induction bs with
  | nil => intro h; rfl
  | cons b rest ih =>
    intro h
    have hb : b < 256 := h b (List.mem_cons_self _ _)
    have h1 : b / 16 < 16 := by omega
    have h2 : b % 16 < 16 := by omega
    rw [hexEncode, hexDecode, hexDigitVal_hexDigit _ h1, hexDigitVal_hexDigit _ h2,
      ih (fun x hx => h x (List.mem_cons_of_mem _ hx))]
    show some ((16 * (b / 16) + b % 16) :: rest) = some (b :: rest)
    have hbeq : 16 * (b / 16) + b % 16 = b := by omega
    rw [hbeq]

lemma hexEncode_length : ∀ bs : List Nat, (hexEncode bs).length = 2 * bs.length := by
  intro bs
  induction bs with
  | nil => rfl
  | cons b rest ih =>
    rw [hexEncode, List.length_cons, List.length_cons, ih, List.length_cons]
    ring

lemma leBytes_reverse (k : Nat) : ∀ n, (leBytes k n).reverse = beBytes k n := by
  induction k with
  | zero => intro n; rfl
  | succ k ih =>
    intro n
    rw [leBytes, beBytes, List.reverse_cons, ih]

lemma leBytes_length (k : Nat) : ∀ n, (leBytes k n).length = k := by
  induction k with
  | zero => intro n; rfl
  | succ k ih =>
    intro n
    rw [leBytes, List.length_cons, ih]

lemma limbsValue_chunksRight :
    ∀ (fuel : Nat) (l : List Nat), l.length ≤ fuel →
      limbsValue ((chunksRight l).map beValue) = beValue l := by
  intro fuel
  induction fuel with
  | zero =>
    intro l hl
    have : l = [] := List.length_eq_zero.mp (Nat.le_zero.mp hl)
    subst this
    rw [chunksRight]
    simp [limbsValue, beValue]
  | succ fuel ih =>
    intro l hl
    rw [chunksRight]
    by_cases h0 : l.length = 0
    · rw [if_pos h0]
      have : l = [] := List.length_eq_zero.mp h0
      subst this
      rfl
    · rw [if_neg h0]
      by_cases h8 : l.length ≤ 8
      · rw [if_pos h8]
        show beValue l + 2 ^ 64 * 0 = beValue l
        ring
      · rw [if_neg h8]
        rw [List.map_cons, limbsValue]
        have htake : (l.take (l.length - 8)).length ≤ fuel := by
          rw [List.length_take]
          omega
        rw [ih (l.take (l.length - 8)) htake]
        have hsplit : l = l.take (l.length - 8) ++ l.drop (l.length - 8) :=
          (List.take_append_drop _ l).symm
        conv_rhs => rw [hsplit]
        rw [beValue_append, List.length_drop]
        have hlen : l.length - (l.length - 8) = 8 := by omega
        rw [hlen]
        have h256 : (256 : Nat) ^ 8 = 2 ^ 64 := by decide
        rw [h256]
        ring

lemma chunksRight_count :
    ∀ (m : Nat) (l : List Nat), l.length ≤ 8 * m → (chunksRight l).length ≤ m := by
  intro m
  induction m with
  | zero =>
    intro l hl
    have : l = [] := List.length_eq_zero.mp (by omega)
    subst this
    rw [chunksRight]
    simp
  | succ m ih =>
    intro l hl
    rw [chunksRight]
    by_cases h0 : l.length = 0
    · rw [if_pos h0]
      simp
    · rw [if_neg h0]
      by_cases h8 : l.length ≤ 8
      · rw [if_pos h8]
        simp
      · rw [if_neg h8]
        rw [List.length_cons]
        have : (l.take (l.length - 8)).length ≤ 8 * m := by
          rw [List.length_take]
          omega
        have := ih (l.take (l.length - 8)) this
        omega

set_option maxHeartbeats 1000000 in
lemma hex_to_fr_prefixed (rest : List Nat) :
    hex_to_fr (48 :: 120 :: rest)
      = match hexDecode rest with
        | none => none
        | some bytes => frFromBeBytes bytes := rfl

set_option maxHeartbeats 1000000 in
/-- C6: `hex_to_fr` inverts `fr_to_hex` on every field element; the
cross-boundary `serialize_fr` encoding is always exactly 64 hex characters
and equals the big-endian hex obtained by exactly one reversal of the
native little-endian byte serialization. -/
theorem fr_hex_roundtrip_serialize (f : F) :
    hex_to_fr (fr_to_hex f) = some f ∧
    (serialize_fr f).length = 64 ∧
    serialize_fr f = hexEncode (beBytes 32 (ZMod.val f)) := by
  have hvlt : ZMod.val f < frModulus := ZMod.val_lt f
  refine ⟨?_, ?_, ?_⟩
  · have hlen : (beBytes 32 (ZMod.val f)).length = 32 := beBytes_length 32 _
    have hdec : hexDecode (hexEncode (beBytes 32 (ZMod.val f)))
        = some (beBytes 32 (ZMod.val f)) :=
      hexDecode_hexEncode _ (beBytes_lt 32 (ZMod.val f))
    rw [fr_to_hex, hex_to_fr_prefixed, hdec]
    show frFromBeBytes (beBytes 32 (ZMod.val f)) = some f
    have hpad : List.replicate (32 - min (beBytes 32 (ZMod.val f)).length 32) 0
        ++ (beBytes 32 (ZMod.val f)).take 32 = beBytes 32 (ZMod.val f) := by
      rw [hlen]
      simp [List.take_of_length_le (le_of_eq hlen)]
    have hcount : (chunksRight (beBytes 32 (ZMod.val f))).length ≤ 4 :=
      chunksRight_count 4 _ (by rw [hlen])
    have hv256 : ZMod.val f < 256 ^ 32 := lt_trans hvlt (by decide)
    have hval : limbsValue (((chunksRight (beBytes 32 (ZMod.val f))).take 4).map beValue)
        = ZMod.val f := by
      rw [List.take_of_length_le hcount, limbsValue_chunksRight 32 _ (le_of_eq hlen),
        beValue_beBytes 32 _ hv256]
    unfold frFromBeBytes
    simp only [hpad, hval]
    rw [if_pos hvlt]
    exact congrArg some (ZMod.natCast_rightInverse f)
  · rw [serialize_fr, hexEncode_length, List.length_reverse, leBytes_length]
  · rw [serialize_fr, leBytes_reverse]

/-! ## Indexer HTTP routes (r14-indexer/src/api.rs) -/

/-- The route path patterns registered by `router`, verbatim (axum
`Router::new().route(...)` calls). -/
def routerPaths : List String :=
  ["/v1/health", "/v1/root", "/v1/proof/{index}", "/v1/leaf/{commitment}"]

/-- The request path built by the SDK's `compute_new_root`
(`format!("{}/v1/leaves", indexer_url)` in `r14-sdk/src/merkle.rs`). -/
def leavesPath : String := "/v1/leaves"

/-- Split a character list on `/` (code 47). -/
def splitSlash : List Char → List (List Char)
  | [] => [[]]
  | c :: rest =>
    let r := splitSlash rest
    if c.toNat == 47 then [] :: r
    else match r with
      | [] => [[c]]
      | seg :: segs => (c :: seg) :: segs

/-- Axum segment matching: a pattern segment starting with a brace (code
123) captures any one segment, otherwise it must be literally equal. -/
def segMatches (pat seg : List Char) : Bool :=
  match pat with
  | c :: _ => if c.toNat == 123 then true else pat == seg
  | [] => pat == seg

/-- Axum path matching: same number of segments, each matching. -/
def routeMatches (pat path : String) : Bool :=
  let ps := splitSlash pat.data
  let qs := splitSlash path.data
  ps.length == qs.length && (ps.zip qs).all (fun pr => segMatches pr.1 pr.2)

/-- C9 (contradicted by the code): no route registered by the indexer's
`router` matches `GET /v1/leaves`; the endpoint the spec documents and the
SDK's `compute_new_root` requests is answered 404 by axum.  (For contrast,
the registered parameterised routes do match their intended shapes.) -/
theorem router_no_leaves_route :
    (routerPaths.any (fun pat => routeMatches pat leavesPath)) = false ∧
    routeMatches "/v1/proof/{index}" "/v1/proof/7" = true ∧
    routeMatches "/v1/leaf/{commitment}" "/v1/leaves" = false := by
  refine ⟨by decide, by decide, by decide⟩

end R14

